import Mathlib

set_option maxHeartbeats 1000000

/-!
Shallow embedding of the viseme core of `src/backend/app.py`
(class `VisemeMapper`): the phoneme table `VISEME_MAP`, the
letter table `letter_to_viseme`, the lookups, and the timeline
generator `generate_viseme_sequence`.  Python floats are modelled
as rationals (all arithmetic performed by the code is exact on the
inputs we reason about); Python strings are Lean `String`s and
Python lists are Lean `List`s.
-/

/-- Python ASCII whitespace recognised by `str.split()` / `str.strip()`:
space, tab, newline, carriage return, vertical tab, form feed. -/
def isPySpace (c : Char) : Bool :=
  c.toNat = 32 || c.toNat = 9 || c.toNat = 10 || c.toNat = 13 || c.toNat = 11 || c.toNat = 12

/-- Python `str.lower()` on a single character (ASCII range, which is all the
tables use): maps a capital letter to the corresponding small letter and fixes
every other character. -/
def pyLowerChar (c : Char) : Char :=
  if 65 ≤ c.toNat ∧ c.toNat ≤ 90 then Char.ofNat (c.toNat + 32) else c

/-- Python `str.lower()`. -/
def pyLower (s : String) : String := String.mk (s.data.map pyLowerChar)

/-- Character-list form of Python `str.strip()`: remove leading and trailing
whitespace. -/
def stripChars (l : List Char) : List Char :=
  ((l.dropWhile isPySpace).reverse.dropWhile isPySpace).reverse

/-- Python `str.strip()`. -/
def pyStrip (s : String) : String := String.mk (stripChars s.data)

/-- Worker for Python `str.split()` with no separator: split on runs of
whitespace, discarding empty tokens.  `acc` holds the characters of the
current token in reverse. -/
def splitWS : List Char → List Char → List String
  | [], acc => if acc = [] then [] else [String.mk acc.reverse]
  | c :: cs, acc =>
    if isPySpace c then
      if acc = [] then splitWS cs [] else String.mk acc.reverse :: splitWS cs []
    else splitWS cs (c :: acc)

/-- Python `str.split()` with no separator. -/
def pySplit (s : String) : List String := splitWS s.data []

/-- Class attribute `VisemeMapper.VISEME_MAP` of `app.py`, in source order. -/
def VISEME_MAP : List (String × Nat) :=
  [("sil", 0), ("sp", 0), ("", 0),
   ("p", 1), ("b", 1), ("m", 1),
   ("f", 2), ("v", 2),
   ("th", 3), ("dh", 3),
   ("t", 4), ("d", 4), ("n", 4), ("l", 4), ("s", 4), ("z", 4),
   ("sh", 5), ("zh", 5), ("ch", 5), ("jh", 5), ("r", 5),
   ("k", 6), ("g", 6), ("ng", 6), ("y", 6), ("w", 6),
   ("h", 7),
   ("aa", 8), ("ao", 8),
   ("ae", 9), ("ah", 9),
   ("eh", 10), ("er", 10),
   ("ih", 11), ("iy", 11),
   ("ow", 12), ("oo", 12), ("uh", 12), ("uw", 12),
   ("ay", 13), ("ey", 13),
   ("oy", 14), ("aw", 14)]

/-- Python `dict.get(key, default)` on an association list. -/
def dictGet (m : List (String × Nat)) (k : String) (d : Nat) : Nat :=
  match m.lookup k with
  | some v => v
  | none => d

/-- Instance attribute `self.viseme_count = 15` set in `VisemeMapper.__init__`. -/
def viseme_count : Nat := 15

/-- Method `VisemeMapper.phoneme_to_viseme`: lower-case and strip the label,
then look it up in `VISEME_MAP`, defaulting to silence `0`. -/
def phoneme_to_viseme (phoneme : String) : Nat :=
  dictGet VISEME_MAP (pyStrip (pyLower phoneme)) 0

/-- Local dictionary `letter_to_viseme` of `VisemeMapper._word_to_visemes`,
in source order.  Note the two-character keys `"ch"` and `"sh"`. -/
def letter_to_viseme : List (String × Nat) :=
  [("a", 8), ("e", 10), ("i", 11), ("o", 12), ("u", 12),
   ("p", 1), ("b", 1), ("m", 1),
   ("f", 2), ("v", 2),
   ("t", 4), ("d", 4), ("n", 4), ("l", 4), ("s", 4),
   ("r", 5), ("ch", 5), ("sh", 5),
   ("k", 6), ("g", 6), ("w", 6), ("y", 6),
   ("h", 7)]

/-- Body of the per-character loop of `_word_to_visemes`: a single character
`char`, viewed as a one-character string, is looked up in `letter_to_viseme`;
an absent character yields silence `0`. -/
def charViseme (c : Char) : Nat := dictGet letter_to_viseme (String.singleton c) 0

/-- Method `VisemeMapper._word_to_visemes`: map every character of the word
through `letter_to_viseme` (default `0`), falling back to `[0]` when the word
has no characters. -/
def word_to_visemes (word : String) : List Nat :=
  let visemes := word.data.map charViseme
  if visemes = [] then [0] else visemes

/-- One element of the list returned by `generate_viseme_sequence`: the Python
dict with keys `viseme_id`, `time_offset`, `duration`. -/
structure TimelineEntry where
  viseme_id : Nat
  time_offset : ℚ
  duration : ℚ
  deriving DecidableEq, Repr

/-- Inner loop of `generate_viseme_sequence` for one word: one entry per
viseme id, each of duration `d`, with the running cursor starting at `t` and
advancing by `d` after every append. -/
def wordEntries (ids : List Nat) (t d : ℚ) : List TimelineEntry :=
  match ids with
  | [] => []
  | id :: rest => ⟨id, t, d⟩ :: wordEntries rest (t + d) d

/-- Outer loop of `generate_viseme_sequence` over the words, threading the
running cursor `t`; `tpw` is `time_per_word`. -/
def genWords : List String → ℚ → ℚ → List TimelineEntry
  | [], _, _ => []
  | w :: ws, tpw, t =>
    let seq := word_to_visemes w
    let vd := tpw / (max seq.length 1 : ℚ)
    wordEntries seq t vd ++ genWords ws tpw (t + (seq.length : ℚ) * vd)

/-- Method `VisemeMapper.generate_viseme_sequence` of `app.py`. -/
def generate_viseme_sequence (text : String) (audio_duration : ℚ) : List TimelineEntry :=
  let words := pySplit (pyLower text)
  let time_per_word := audio_duration / (max words.length 1 : ℚ)
  genWords words time_per_word 0

/-- Sum of the `duration` fields of a timeline. -/
def durSum (l : List TimelineEntry) : ℚ := (l.map TimelineEntry.duration).sum

/-- Cursor consistency: the first entry starts at `t` and every entry starts
where the previous one ended. -/
def cursorOk : ℚ → List TimelineEntry → Prop
  | _, [] => True
  | t, e :: rest => e.time_offset = t ∧ cursorOk (t + e.duration) rest

/-- Division that fails (like Python raising `ZeroDivisionError`) when the
denominator is zero. -/
def qdivChecked (a b : ℚ) : Option ℚ := if b = 0 then none else some (a / b)

/-- Variant of `genWords` in which the division by `max(len(seq), 1)` is the
failing `qdivChecked`. -/
def genWordsChecked : List String → ℚ → ℚ → Option (List TimelineEntry)
  | [], _, _ => some []
  | w :: ws, tpw, t => do
    let seq := word_to_visemes w
    let vd ← qdivChecked tpw (max seq.length 1 : ℚ)
    let rest ← genWordsChecked ws tpw (t + (seq.length : ℚ) * vd)
    pure (wordEntries seq t vd ++ rest)

/-- Variant of `generate_viseme_sequence` in which both divisions are the
failing `qdivChecked`: it returns `none` exactly when the Python code would
raise `ZeroDivisionError`. -/
def generate_viseme_sequence_checked (text : String) (audio_duration : ℚ) :
    Option (List TimelineEntry) := do
  let words := pySplit (pyLower text)
  let time_per_word ← qdivChecked audio_duration (max words.length 1 : ℚ)
  genWordsChecked words time_per_word 0

/-! Basic facts about the embedded operations. -/

lemma word_to_visemes_ne_nil (w : String) : word_to_visemes w ≠ [] := by
  unfold word_to_visemes
  cases h : w.data.map charViseme <;> simp [h]

lemma word_to_visemes_length_pos (w : String) : 0 < (word_to_visemes w).length :=
  List.length_pos.mpr (word_to_visemes_ne_nil w)

lemma max_length_eq (w : String) :
    (max (word_to_visemes w).length 1 : ℚ) = ((word_to_visemes w).length : ℚ) := by
  have h := word_to_visemes_length_pos w
  have : max (word_to_visemes w).length 1 = (word_to_visemes w).length :=
    Nat.max_eq_left h
  exact_mod_cast congrArg (fun n : Nat => (n : ℚ)) this

lemma word_len_cast_ne_zero (w : String) : ((word_to_visemes w).length : ℚ) ≠ 0 := by
  have h := word_to_visemes_length_pos w
  exact_mod_cast Nat.pos_iff_ne_zero.mp h

lemma durSum_nil : durSum [] = 0 := rfl

lemma durSum_cons (e : TimelineEntry) (l : List TimelineEntry) :
    durSum (e :: l) = e.duration + durSum l := by
  simp [durSum]

lemma durSum_append (l₁ l₂ : List TimelineEntry) :
    durSum (l₁ ++ l₂) = durSum l₁ + durSum l₂ := by
  simp [durSum]

lemma durSum_wordEntries (ids : List Nat) (t d : ℚ) :
    durSum (wordEntries ids t d) = (ids.length : ℚ) * d := by
  induction ids generalizing t with
  | nil => simp [wordEntries, durSum]
  | cons i rest ih =>
      simp only [wordEntries, durSum_cons, ih, List.length_cons]
      push_cast
      ring

lemma durSum_genWords (ws : List String) (tpw t : ℚ) :
    durSum (genWords ws tpw t) = (ws.length : ℚ) * tpw := by
  induction ws generalizing t with
  | nil => simp [genWords, durSum]
  | cons w rest ih =>
      simp only [genWords, durSum_append, durSum_wordEntries, ih, List.length_cons]
      rw [max_length_eq, div_eq_mul_inv]
      have hne := word_len_cast_ne_zero w
      field_simp
      ring

lemma durSum_generate (text : String) (D : ℚ) :
    durSum (generate_viseme_sequence text D) =
      ((pySplit (pyLower text)).length : ℚ) *
        (D / (max (pySplit (pyLower text)).length 1 : ℚ)) := by
  unfold generate_viseme_sequence
  exact durSum_genWords _ _ _

/-! Membership and shape of generated entries. -/

lemma mem_wordEntries {e : TimelineEntry} {ids : List Nat} {t d : ℚ}
    (h : e ∈ wordEntries ids t d) : e.viseme_id ∈ ids ∧ e.duration = d := by
  induction ids generalizing t with
  | nil => simp [wordEntries] at h
  | cons i rest ih =>
      simp only [wordEntries, List.mem_cons] at h
      rcases h with rfl | h
      · exact ⟨List.mem_cons_self _ _, rfl⟩
      · obtain ⟨h1, h2⟩ := ih h
        exact ⟨List.mem_cons_of_mem _ h1, h2⟩

lemma mem_genWords {e : TimelineEntry} {ws : List String} {tpw t : ℚ}
    (h : e ∈ genWords ws tpw t) :
    ∃ w ∈ ws, e.viseme_id ∈ word_to_visemes w ∧
      e.duration = tpw / (max (word_to_visemes w).length 1 : ℚ) := by
  induction ws generalizing t with
  | nil => simp [genWords] at h
  | cons w rest ih =>
      simp only [genWords, List.mem_append] at h
      rcases h with h | h
      · obtain ⟨h1, h2⟩ := mem_wordEntries h
        exact ⟨w, List.mem_cons_self _ _, h1, h2⟩
      · obtain ⟨w', hw', h1, h2⟩ := ih h
        exact ⟨w', List.mem_cons_of_mem _ hw', h1, h2⟩

lemma mem_generate {e : TimelineEntry} {text : String} {D : ℚ}
    (h : e ∈ generate_viseme_sequence text D) :
    ∃ w ∈ pySplit (pyLower text), e.viseme_id ∈ word_to_visemes w ∧
      e.duration = (D / (max (pySplit (pyLower text)).length 1 : ℚ)) /
        (max (word_to_visemes w).length 1 : ℚ) := by
  unfold generate_viseme_sequence at h
  exact mem_genWords h

/-! Claim theorems. -/

/-- C1: for every text and every `audioDuration D ≥ 0`, the durations of the
entries returned by `generate_viseme_sequence text D` sum exactly to `D`
whenever the text splits into at least one word, and to `0` when it splits
into zero words (in the rational model the floating-point accumulation error
is zero). -/
theorem C1_duration_coverage (text : String) (D : ℚ) (hD : 0 ≤ D) :
    (pySplit (pyLower text) ≠ [] →
      durSum (generate_viseme_sequence text D) = D) ∧
    (pySplit (pyLower text) = [] →
      durSum (generate_viseme_sequence text D) = 0) := by
  constructor
  · intro h
    rw [durSum_generate]
    have hl : 0 < (pySplit (pyLower text)).length := List.length_pos.mpr h
    have hone : (1 : ℚ) ≤ ((pySplit (pyLower text)).length : ℚ) := by
      exact_mod_cast hl
    rw [max_eq_left hone]
    have hne : ((pySplit (pyLower text)).length : ℚ) ≠ 0 := by
      exact_mod_cast Nat.pos_iff_ne_zero.mp hl
    field_simp
  · intro h
    rw [durSum_generate, h]
    simp

/-- Witness for C1 at the concrete input `("a b", 1)`. -/
theorem C1_duration_coverage_witness :
    durSum (generate_viseme_sequence "a b" 1) = 1 :=
  (C1_duration_coverage "a b" 1 (by norm_num)).1 (by decide)

lemma genWordsChecked_eq (ws : List String) (tpw t : ℚ) :
    genWordsChecked ws tpw t = some (genWords ws tpw t) := by
  induction ws generalizing t with
  | nil => rfl
  | cons w rest ih =>
      have h : (max (word_to_visemes w).length 1 : ℚ) ≠ 0 := by
        rw [max_length_eq]; exact word_len_cast_ne_zero w
      simp [genWordsChecked, genWords, qdivChecked, h, ih]

/-- C3: `generate_viseme_sequence` is total and never raises: the checked
variant, in which each of the two divisions fails on a zero denominator
exactly as Python would raise `ZeroDivisionError`, always succeeds and
returns the unchecked result, because both denominators are guarded by
`max(·, 1)`. -/
theorem C3_total_no_division_by_zero (text : String) (D : ℚ) :
    generate_viseme_sequence_checked text D =
      some (generate_viseme_sequence text D) := by
  have hpos : 0 < max (pySplit (pyLower text)).length 1 :=
    lt_of_lt_of_le Nat.one_pos (Nat.le_max_right _ _)
  have h : (max (pySplit (pyLower text)).length 1 : ℚ) ≠ 0 := by
    exact_mod_cast Nat.pos_iff_ne_zero.mp hpos
  unfold generate_viseme_sequence_checked generate_viseme_sequence
  simp [qdivChecked, h, genWordsChecked_eq]

/-- C5: when the lower-cased text splits into zero words (empty or
all-whitespace text), `generate_viseme_sequence` returns the empty sequence
for every duration, and the `time_per_word` denominator `max(wordCount, 1)`
evaluates to `1`. -/
theorem C5_zero_words_empty (text : String) (D : ℚ)
    (h : pySplit (pyLower text) = []) :
    generate_viseme_sequence text D = [] ∧
      max (pySplit (pyLower text)).length 1 = 1 := by
  refine ⟨?_, by rw [h]; rfl⟩
  unfold generate_viseme_sequence
  rw [h]
  rfl

/-- Witness for C5 at the empty string and at an all-whitespace string. -/
theorem C5_zero_words_empty_witness :
    generate_viseme_sequence "" 3 = [] ∧
      generate_viseme_sequence "  " ((7 : ℚ)/2) = [] :=
  ⟨(C5_zero_words_empty "" 3 (by decide)).1,
   (C5_zero_words_empty "  " ((7 : ℚ)/2) (by decide)).1⟩

/-- C6: `generate_viseme_sequence "a b" 1` returns exactly the two entries
`{viseme_id := 8, time_offset := 0, duration := 1/2}` and
`{viseme_id := 1, time_offset := 1/2, duration := 1/2}`. -/
theorem C6_scenario_a_b :
    generate_viseme_sequence "a b" 1 =
      [⟨8, 0, 1/2⟩, ⟨1, 1/2, 1/2⟩] := by
  have h : pySplit (pyLower "a b") = ["a", "b"] := by decide
  have ha : word_to_visemes "a" = [8] := by decide
  have hb : word_to_visemes "b" = [1] := by decide
  unfold generate_viseme_sequence
  rw [h]
  simp [genWords, ha, hb, wordEntries]
  decide

/-! Cursor consistency of the generated timeline. -/

lemma cursorOk_wordEntries (ids : List Nat) (t d : ℚ) :
    cursorOk t (wordEntries ids t d) := by
  induction ids generalizing t with
  | nil => trivial
  | cons i rest ih =>
      simp only [wordEntries, cursorOk]
      exact ⟨by trivial, ih (t + d)⟩

lemma cursorOk_append {l₁ l₂ : List TimelineEntry} {t : ℚ}
    (h₁ : cursorOk t l₁) (h₂ : cursorOk (t + durSum l₁) l₂) :
    cursorOk t (l₁ ++ l₂) := by
  induction l₁ generalizing t with
  | nil =>
      rw [durSum_nil, add_zero] at h₂
      simpa using h₂
  | cons e rest ih =>
      simp only [cursorOk] at h₁
      obtain ⟨he, hr⟩ := h₁
      simp only [List.cons_append, cursorOk]
      refine ⟨he, ih hr ?_⟩
      rw [durSum_cons] at h₂
      rwa [← add_assoc] at h₂

lemma cursorOk_genWords (ws : List String) (tpw t : ℚ) :
    cursorOk t (genWords ws tpw t) := by
  induction ws generalizing t with
  | nil => trivial
  | cons w rest ih =>
      simp only [genWords]
      apply cursorOk_append (cursorOk_wordEntries _ _ _)
      rw [durSum_wordEntries]
      exact ih _

lemma cursorOk_get {l : List TimelineEntry} {t : ℚ} (h : cursorOk t l) :
    ∀ i (hi : i < l.length), (l.get ⟨i, hi⟩).time_offset = t + durSum (l.take i) := by
  induction l generalizing t with
  | nil => intro i hi; simp at hi
  | cons e rest ih =>
      intro i hi
      simp only [cursorOk] at h
      obtain ⟨he, hr⟩ := h
      cases i with
      | zero => simpa [durSum] using he
      | succ j =>
          have hj := ih hr j (Nat.lt_of_succ_lt_succ hi)
          simp only [List.get_cons_succ]
          rw [hj, List.take_succ_cons, durSum_cons]
          ring

lemma durSum_take_succ (l : List TimelineEntry) (i : Nat) (hi : i < l.length) :
    durSum (l.take (i + 1)) = durSum (l.take i) + (l.get ⟨i, hi⟩).duration := by
  unfold durSum
  rw [List.map_take, List.map_take,
    List.sum_take_succ _ i (by simpa using hi), List.getElem_map]
  simp [List.get_eq_getElem]

lemma durSum_take_mono {l : List TimelineEntry} (hpos : ∀ e ∈ l, 0 ≤ e.duration)
    {i j : Nat} (hij : i ≤ j) : durSum (l.take i) ≤ durSum (l.take j) := by
  have hsplit : l.take j = l.take i ++ (l.drop i).take (j - i) := by
    conv_lhs => rw [show j = i + (j - i) from (Nat.add_sub_cancel' hij).symm]
    rw [List.take_add]
  rw [hsplit, durSum_append]
  have h2 : 0 ≤ durSum ((l.drop i).take (j - i)) := by
    unfold durSum
    apply List.sum_nonneg
    intro x hx
    simp only [List.mem_map] at hx
    obtain ⟨e, he, rfl⟩ := hx
    exact hpos e (List.mem_of_mem_drop (List.mem_of_mem_take he))
  linarith

lemma generate_duration_nonneg {text : String} {D : ℚ} (hD : 0 ≤ D) :
    ∀ e ∈ generate_viseme_sequence text D, 0 ≤ e.duration := by
  intro e he
  obtain ⟨w, _, _, hdur⟩ := mem_generate he
  rw [hdur]
  have h1 : (0 : ℚ) ≤ (max ((pySplit (pyLower text)).length : ℚ) 1 : ℚ) :=
    le_trans zero_le_one (le_max_right _ _)
  have h2 : (0 : ℚ) ≤ (max ((word_to_visemes w).length : ℚ) 1 : ℚ) :=
    le_trans zero_le_one (le_max_right _ _)
  exact div_nonneg (div_nonneg hD h1) h2

/-- Packaging of the contiguity facts stated by C2 for a timeline `l`: the
first entry starts at offset `0`, every entry starts where the previous one
ends, and the offsets are non-decreasing. -/
def contiguousFacts (l : List TimelineEntry) : Prop :=
  (∀ h0 : 0 < l.length, (l.get ⟨0, h0⟩).time_offset = 0) ∧
  (∀ i (hi : i + 1 < l.length),
    (l.get ⟨i + 1, hi⟩).time_offset =
      (l.get ⟨i, Nat.lt_of_succ_lt hi⟩).time_offset +
        (l.get ⟨i, Nat.lt_of_succ_lt hi⟩).duration) ∧
  (∀ i j (hi : i < l.length) (hj : j < l.length), i ≤ j →
    (l.get ⟨i, hi⟩).time_offset ≤ (l.get ⟨j, hj⟩).time_offset)

/-- C2: for every text and every `audioDuration D ≥ 0` the returned sequence
is contiguous: the first entry has `time_offset` `0`, entry `i+1` starts at
entry `i`'s `time_offset + duration`, and the offsets are non-decreasing. -/
theorem C2_contiguity (text : String) (D : ℚ) (hD : 0 ≤ D) :
    contiguousFacts (generate_viseme_sequence text D) := by
  have hcur : cursorOk 0 (generate_viseme_sequence text D) := by
    unfold generate_viseme_sequence
    exact cursorOk_genWords _ _ _
  have hoff := cursorOk_get hcur
  have hpos := @generate_duration_nonneg text D hD
  refine ⟨?_, ?_, ?_⟩
  · intro h0
    rw [hoff 0 h0]
    simp [durSum]
  · intro i hi
    rw [hoff (i + 1) hi, hoff i (Nat.lt_of_succ_lt hi),
      durSum_take_succ _ i (Nat.lt_of_succ_lt hi)]
    ring
  · intro i j hi hj hij
    rw [hoff i hi, hoff j hj]
    have := durSum_take_mono hpos hij
    linarith

/-- Witness for C2 at the concrete input `("hi", 2)`. -/
theorem C2_contiguity_witness :
    contiguousFacts (generate_viseme_sequence "hi" 2) :=
  C2_contiguity "hi" 2 (by norm_num)

/-! Negative durations are silently accepted (C4). -/

/-- Counterexample to C4 as stated: at text `"a"` and `audioDuration = -1`
the code performs no `InvalidArgument` rejection at all; it silently returns
a normal entry carrying the negative duration `-1`. -/
theorem C4_counterexample :
    generate_viseme_sequence "a" (-1) = [⟨8, 0, -1⟩] := by
  have h : pySplit (pyLower "a") = ["a"] := by decide
  have ha : word_to_visemes "a" = [8] := by decide
  unfold generate_viseme_sequence
  rw [h]
  simp [genWords, ha, wordEntries]
  decide

/-- C4 (amended): the reference code does not guard `audioDuration < 0`; for
every text and every `D < 0` it silently coerces the negative duration into
the result, every returned entry having a strictly negative `duration`. -/
theorem C4_negative_duration_not_rejected (text : String) (D : ℚ) (hD : D < 0) :
    ∀ e ∈ generate_viseme_sequence text D, e.duration < 0 := by
  intro e he
  obtain ⟨w, _, _, hdur⟩ := mem_generate he
  rw [hdur]
  have h1 : (0 : ℚ) < max ((pySplit (pyLower text)).length : ℚ) 1 :=
    lt_of_lt_of_le zero_lt_one (le_max_right _ _)
  have h2 : (0 : ℚ) < max ((word_to_visemes w).length : ℚ) 1 :=
    lt_of_lt_of_le zero_lt_one (le_max_right _ _)
  exact div_neg_of_neg_of_pos (div_neg_of_neg_of_pos hD h1) h2

/-- Witness for the amended C4 at the concrete input `("a", -1)`. -/
theorem C4_negative_duration_not_rejected_witness :
    TimelineEntry.duration ⟨8, 0, -1⟩ < 0 := by
  apply C4_negative_duration_not_rejected "a" (-1) (by norm_num)
  have h : generate_viseme_sequence "a" (-1) = [⟨8, 0, -1⟩] := by
    have hs : pySplit (pyLower "a") = ["a"] := by decide
    have ha : word_to_visemes "a" = [8] := by decide
    unfold generate_viseme_sequence
    rw [hs]
    simp [genWords, ha, wordEntries]
    decide
  rw [h]
  exact List.mem_singleton_self _

/-! Default-to-silence totality of the two lookups (C7). -/

/-- C7: both lookups are total with a silence default: a label absent from
`VISEME_MAP` (after normalization) yields `0` from `phoneme_to_viseme`, and a
character absent from `letter_to_viseme` yields `0` in the per-character
mapping of `_word_to_visemes`. -/
theorem C7_lookup_defaults_to_silence :
    (∀ L : String, VISEME_MAP.lookup (pyStrip (pyLower L)) = none →
      phoneme_to_viseme L = 0) ∧
    (∀ c : Char, letter_to_viseme.lookup (String.singleton c) = none →
      charViseme c = 0) := by
  constructor
  · intro L h
    simp [phoneme_to_viseme, dictGet, h]
  · intro c h
    simp [charViseme, dictGet, h]

/-- Witness for C7 at the unmapped label `"qx"` and the unmapped
character `'!'`. -/
theorem C7_lookup_defaults_to_silence_witness :
    phoneme_to_viseme "qx" = 0 ∧ charViseme '!' = 0 :=
  ⟨C7_lookup_defaults_to_silence.1 "qx" (by decide),
   C7_lookup_defaults_to_silence.2 '!' (by decide)⟩

/-! Range of the produced viseme identifiers (C9, C10). -/

lemma lookup_mem {m : List (String × Nat)} {k : String} {v : Nat}
    (h : m.lookup k = some v) : ∃ k', (k', v) ∈ m := by
  induction m with
  | nil => simp [List.lookup] at h
  | cons a rest ih =>
      obtain ⟨a1, a2⟩ := a
      rw [List.lookup] at h
      cases hk : (k == a1) with
      | true =>
          rw [hk] at h
          simp at h
          exact ⟨a1, by simp [h]⟩
      | false =>
          rw [hk] at h
          simp at h
          obtain ⟨k', hk'⟩ := ih h
          exact ⟨k', List.mem_cons_of_mem _ hk'⟩

lemma dictGet_lt {m : List (String × Nat)} {k : String} {d n : Nat}
    (hm : ∀ p ∈ m, p.2 < n) (hd : d < n) : dictGet m k d < n := by
  unfold dictGet
  cases h : m.lookup k with
  | none => exact hd
  | some v =>
      obtain ⟨k', hk⟩ := lookup_mem h
      exact hm (k', v) hk

lemma dictGet_mem {m : List (String × Nat)} {k : String} {d : Nat} {S : List Nat}
    (hm : ∀ p ∈ m, p.2 ∈ S) (hd : d ∈ S) : dictGet m k d ∈ S := by
  unfold dictGet
  cases h : m.lookup k with
  | none => exact hd
  | some v =>
      obtain ⟨k', hk⟩ := lookup_mem h
      exact hm (k', v) hk

lemma charViseme_lt (c : Char) : charViseme c < 15 :=
  dictGet_lt (by decide) (by decide)

lemma mem_word_to_visemes {v : Nat} {w : String} (h : v ∈ word_to_visemes w) :
    v = 0 ∨ ∃ c, v = charViseme c := by
  simp only [word_to_visemes] at h
  by_cases hc : w.data.map charViseme = []
  · rw [if_pos hc] at h
    simp at h
    exact Or.inl h
  · rw [if_neg hc] at h
    simp only [List.mem_map] at h
    obtain ⟨c, _, rfl⟩ := h
    exact Or.inr ⟨c, rfl⟩

/-- C9: `viseme_count` is `15`, every value of `VISEME_MAP` and of
`letter_to_viseme` lies in `[0, 14]`, and every `viseme_id` of every entry
returned by `generate_viseme_sequence` is below `15` (they are naturals, so
`0 ≤ id` is automatic). -/
theorem C9_viseme_ids_in_range :
    viseme_count = 15 ∧
    (∀ p ∈ VISEME_MAP, p.2 < 15) ∧
    (∀ p ∈ letter_to_viseme, p.2 < 15) ∧
    (∀ (text : String) (D : ℚ), ∀ e ∈ generate_viseme_sequence text D,
      e.viseme_id < 15) := by
  refine ⟨rfl, by decide, by decide, ?_⟩
  intro text D e he
  obtain ⟨w, _, hmem, _⟩ := mem_generate he
  rcases mem_word_to_visemes hmem with h0 | ⟨c, hc⟩
  · rw [h0]; decide
  · rw [hc]; exact charViseme_lt c

/-- Witness for C9: the first entry generated for `("hi", 2)` has a valid id. -/
theorem C9_viseme_ids_in_range_witness :
    TimelineEntry.viseme_id ⟨7, 0, 1⟩ < 15 := by
  apply C9_viseme_ids_in_range.2.2.2 "hi" 2
  have h : generate_viseme_sequence "hi" 2 = [⟨7, 0, 1⟩, ⟨11, 1, 1⟩] := by
    have hs : pySplit (pyLower "hi") = ["hi"] := by decide
    have hw : word_to_visemes "hi" = [7, 11] := by decide
    unfold generate_viseme_sequence
    rw [hs]
    simp [genWords, hw, wordEntries]
    decide
  rw [h]
  exact List.mem_cons_self _ _

/-- Viseme identifiers that the character path can actually produce: `0`
(the default and the empty-word fallback) together with the values of the
single-character keys of `letter_to_viseme`. -/
def reachable_ids : List Nat := [0, 1, 2, 4, 5, 6, 7, 8, 10, 11, 12]

lemma charViseme_mem_reachable (c : Char) : charViseme c ∈ reachable_ids :=
  dictGet_mem (by decide) (by decide)

/-- C10: every `viseme_id` produced by `generate_viseme_sequence` lies in
`{0, 1, 2, 4, 5, 6, 7, 8, 10, 11, 12}`; in particular the ids `3`, `9`, `13`
and `14` never appear.  The one-character string looked up by the
per-character loop can never equal the multi-character keys `"ch"` and
`"sh"`, and the character `'c'` itself maps to silence `0`. -/
theorem C10_reachable_ids_only :
    (∀ (text : String) (D : ℚ), ∀ e ∈ generate_viseme_sequence text D,
      e.viseme_id ∈ reachable_ids ∧ e.viseme_id ≠ 3 ∧ e.viseme_id ≠ 9 ∧
        e.viseme_id ≠ 13 ∧ e.viseme_id ≠ 14) ∧
    (∀ c : Char, String.singleton c ≠ "ch" ∧ String.singleton c ≠ "sh") ∧
    charViseme 'c' = 0 := by
  refine ⟨?_, ?_, by decide⟩
  · intro text D e he
    obtain ⟨w, _, hmem, _⟩ := mem_generate he
    have hin : e.viseme_id ∈ reachable_ids := by
      rcases mem_word_to_visemes hmem with h0 | ⟨c, hc⟩
      · rw [h0]; decide
      · rw [hc]; exact charViseme_mem_reachable c
    refine ⟨hin, ?_, ?_, ?_, ?_⟩ <;>
      · intro hEq
        rw [hEq] at hin
        revert hin
        decide
  · intro c
    constructor <;>
      · intro hEq
        have h2 := congrArg (fun s : String => s.data.length) hEq
        simp [String.singleton] at h2

/-- Witness for C10: the first entry generated for `("a b", 1)` carries a
reachable id. -/
theorem C10_reachable_ids_only_witness :
    TimelineEntry.viseme_id ⟨8, 0, (1 : ℚ)/2⟩ ∈ reachable_ids := by
  refine (C10_reachable_ids_only.1 "a b" 1 ⟨8, 0, (1 : ℚ)/2⟩ ?_).1
  have hg : generate_viseme_sequence "a b" 1 = [⟨8, 0, 1/2⟩, ⟨1, 1/2, 1/2⟩] := by
    have hs : pySplit (pyLower "a b") = ["a", "b"] := by decide
    have ha : word_to_visemes "a" = [8] := by decide
    have hb : word_to_visemes "b" = [1] := by decide
    unfold generate_viseme_sequence
    rw [hs]
    simp [genWords, ha, hb, wordEntries]
    decide
  rw [hg]
  exact List.mem_cons_self _ _

/-! Normalization of phoneme labels (C8). -/

lemma Char_toNat_ofNat {n : Nat} (h : n < 55296) : (Char.ofNat n).toNat = n := by
  have hv : n.isValidChar := Or.inl h
  rw [Char.ofNat, dif_pos hv]
  rfl

lemma pyLowerChar_toNat_of_upper {c : Char} (h : 65 ≤ c.toNat ∧ c.toNat ≤ 90) :
    (pyLowerChar c).toNat = c.toNat + 32 := by
  unfold pyLowerChar
  rw [if_pos h]
  exact Char_toNat_ofNat (by omega)

lemma pyLowerChar_fix_of_not_upper {c : Char}
    (h : ¬(65 ≤ c.toNat ∧ c.toNat ≤ 90)) : pyLowerChar c = c := by
  unfold pyLowerChar
  rw [if_neg h]

lemma pyLowerChar_idem (c : Char) : pyLowerChar (pyLowerChar c) = pyLowerChar c := by
  by_cases h : 65 ≤ c.toNat ∧ c.toNat ≤ 90
  · have ht := pyLowerChar_toNat_of_upper h
    apply pyLowerChar_fix_of_not_upper
    rw [ht]
    omega
  · rw [pyLowerChar_fix_of_not_upper h, pyLowerChar_fix_of_not_upper h]

lemma isPySpace_pyLowerChar (c : Char) : isPySpace (pyLowerChar c) = isPySpace c := by
  by_cases h : 65 ≤ c.toNat ∧ c.toNat ≤ 90
  · have ht := pyLowerChar_toNat_of_upper h
    have h1 : isPySpace c = false := by
      unfold isPySpace
      simp only [Bool.or_eq_false_iff, decide_eq_false_iff_not]
      omega
    have h2 : isPySpace (pyLowerChar c) = false := by
      unfold isPySpace
      rw [ht]
      simp only [Bool.or_eq_false_iff, decide_eq_false_iff_not]
      omega
    rw [h1, h2]
  · rw [pyLowerChar_fix_of_not_upper h]

lemma mem_stripChars {c : Char} {l : List Char} (h : c ∈ stripChars l) : c ∈ l := by
  unfold stripChars at h
  rw [List.mem_reverse] at h
  have h2 : c ∈ (l.dropWhile isPySpace).reverse :=
    (List.dropWhile_sublist _).subset h
  rw [List.mem_reverse] at h2
  exact (List.dropWhile_sublist _).subset h2

lemma dropWhile_dropWhile (p : Char → Bool) (l : List Char) :
    (l.dropWhile p).dropWhile p = l.dropWhile p := by
  induction l with
  | nil => rfl
  | cons c cs ih =>
      by_cases h : p c
      · simp [List.dropWhile_cons, h, ih]
      · simp [List.dropWhile_cons, h]

lemma dropWhile_head_not {p : Char → Bool} {c : Char} {cs : List Char}
    (h : List.dropWhile p (c :: cs) = c :: cs) : p c = false := by
  by_contra hc
  rw [Bool.not_eq_false] at hc
  rw [List.dropWhile_cons, if_pos hc] at h
  have hlen := congrArg List.length h
  have hle := (List.dropWhile_sublist (l := cs) p).length_le
  simp only [List.length_cons] at hlen
  omega

lemma dropWhile_append_last {p : Char → Bool} {c : Char} (hc : p c = false) :
    ∀ xs : List Char, ∃ ys, List.dropWhile p (xs ++ [c]) = ys ++ [c] := by
  intro xs
  induction xs with
  | nil => exact ⟨[], by simp [List.dropWhile_cons, hc]⟩
  | cons x xt ih =>
      by_cases h : p x
      · simpa [List.cons_append, List.dropWhile_cons, h] using ih
      · exact ⟨x :: xt, by simp [List.cons_append, List.dropWhile_cons, h]⟩

lemma dropWhile_back_strip {p : Char → Bool} {m : List Char}
    (hm : List.dropWhile p m = m) :
    List.dropWhile p ((m.reverse.dropWhile p).reverse) =
      (m.reverse.dropWhile p).reverse := by
  cases m with
  | nil => rfl
  | cons c cs =>
      have hc : p c = false := dropWhile_head_not hm
      have hrev : (c :: cs).reverse = cs.reverse ++ [c] := by simp
      rw [hrev]
      obtain ⟨ys, hys⟩ := dropWhile_append_last hc cs.reverse
      rw [hys, List.reverse_append]
      simp [List.dropWhile_cons, hc]

lemma stripChars_idem (l : List Char) : stripChars (stripChars l) = stripChars l := by
  have h1 := dropWhile_back_strip (p := isPySpace) (dropWhile_dropWhile isPySpace l)
  unfold stripChars
  rw [h1, List.reverse_reverse, dropWhile_dropWhile]

lemma map_eq_self_of_fix {f : Char → Char} :
    ∀ {l : List Char}, (∀ c ∈ l, f c = c) → l.map f = l := by
  intro l h
  induction l with
  | nil => rfl
  | cons c cs ih =>
      rw [List.map_cons, h c (List.mem_cons_self _ _),
        ih (fun d hd => h d (List.mem_cons_of_mem _ hd))]

lemma map_pyLowerChar_stripChars (l : List Char) :
    (stripChars (l.map pyLowerChar)).map pyLowerChar =
      stripChars (l.map pyLowerChar) := by
  apply map_eq_self_of_fix
  intro c hc
  have hmem := mem_stripChars hc
  rw [List.mem_map] at hmem
  obtain ⟨d, _, rfl⟩ := hmem
  exact pyLowerChar_idem d

lemma pyNormalize_idem (s : String) :
    pyStrip (pyLower (pyStrip (pyLower s))) = pyStrip (pyLower s) := by
  unfold pyStrip pyLower
  show String.mk (stripChars ((stripChars (s.data.map pyLowerChar)).map pyLowerChar)) = _
  apply congrArg String.mk
  rw [map_pyLowerChar_stripChars]
  exact stripChars_idem _

/-- C8: `phoneme_to_viseme` normalizes before lookup: its value on any label
`L` equals its value on the case-folded, whitespace-trimmed form of `L`, and
in particular `phoneme_to_viseme "SH" = phoneme_to_viseme "sh" = 5`. -/
theorem C8_lookup_normalizes :
    (∀ L : String,
      phoneme_to_viseme L = phoneme_to_viseme (pyStrip (pyLower L))) ∧
    phoneme_to_viseme "SH" = 5 ∧ phoneme_to_viseme "sh" = 5 := by
  refine ⟨?_, by decide, by decide⟩
  intro L
  unfold phoneme_to_viseme
  rw [pyNormalize_idem]

/-- Witness for C8 at the concrete mixed-case, padded label `" SH "`. -/
theorem C8_lookup_normalizes_witness :
    phoneme_to_viseme " SH " = phoneme_to_viseme (pyStrip (pyLower " SH ")) :=
  C8_lookup_normalizes.1 " SH "
